import Mathlib

/-!
# SentinelX — Merkle Batching & Inclusion-Proof Engine, verified

Shallow embedding of the audit-trail core of the SentinelX repository.

The on-chain side is `contracts/contracts/AuditProofBatch.sol`: storage of
Merkle roots (`storeBatch`), proof verification (`verifyInclusion`), and the
query surface (`getBatch`, `isRootStored`). Those functions are embedded here
directly from the Solidity source. 32-byte words (`bytes32`) and addresses are
modelled as `ℕ`; Solidity's zero value `bytes32(0)` is `0`. The keccak256 hash
of the packed concatenation of two 32-byte words is a function of the ordered
pair of words, modelled as an abstract parameter `H : ℕ → ℕ → ℕ`; properties
that need collision-freeness take injectivity of `H` as a hypothesis.

The off-chain side (EventIngestQueue, BatchBuilder, ProofService, LedgerAnchor)
is a Python service that is not part of the repository sources available here;
those components are modelled from the specification, and each such definition
is marked `Modelled from the spec:` in its doc comment.
-/

namespace SentinelX

/-! ## Pairwise hash rule and proof verification

From `AuditProofBatch.sol`, `verifyInclusion` (lines 93–112): at each step
the computed hash is combined with the next proof element, the smaller word
first:

```text
if (computedHash <= proofElement) {
    computedHash = keccak256(abi.encodePacked(computedHash, proofElement));
} else {
    computedHash = keccak256(abi.encodePacked(proofElement, computedHash));
}
```
-/

/-- One combining step of the verifier loop: hash of the two words with the
smaller one first, i.e. `H (min a b) (max a b)`. `H x y` stands for
`keccak256(abi.encodePacked(x, y))`. -/
def combine (H : ℕ → ℕ → ℕ) (a b : ℕ) : ℕ :=
  if a ≤ b then H a b else H b a

/-- The pure replay at the heart of `verifyInclusion`: fold the combining step
over the proof elements starting from the leaf, and compare with the root.
This is also the spec's §4.3 `verify(leaf, proof, root)`. -/
def verify (H : ℕ → ℕ → ℕ) (leaf : ℕ) (proof : List ℕ) (root : ℕ) : Bool :=
  proof.foldl (combine H) leaf == root

/-! ## Batch building (off-chain), modelled from the spec -/

/-- Modelled from the spec: one level of the BatchBuilder tree construction
(§4.2, steps 2–3). Nodes are combined pairwise left to right with
`H(min,max)`; the final unpaired node of an odd level is carried up
unchanged. The BatchBuilder service itself is not in the available sources. -/
def buildLevel (H : ℕ → ℕ → ℕ) : List ℕ → List ℕ
  | [] => []
  | [a] => [a]
  | a :: b :: rest => combine H a b :: buildLevel H rest

/-- Level iteration of `computeRoot` with an explicit iteration budget.
Each pass over a list of two or more nodes strictly shrinks it, so a budget
equal to the list length always suffices; the `0` arm is unreachable from
`computeRoot` and only makes the recursion structural. -/
def computeRootAux (H : ℕ → ℕ → ℕ) : ℕ → List ℕ → Option ℕ
  | _, [] => none
  | _, [a] => some a
  | 0, _ :: _ :: _ => none
  | fuel + 1, a :: b :: rest =>
    computeRootAux H fuel (buildLevel H (a :: b :: rest))

/-- Modelled from the spec: BatchBuilder's root computation (§4.2, step 4):
repeat the level construction until exactly one hash remains. `none` on the
empty list (`seal` fails only on an empty leaf set). -/
def computeRoot (H : ℕ → ℕ → ℕ) (l : List ℕ) : Option ℕ :=
  computeRootAux H l.length l

/-- The sibling recorded for the node at index `i` of a level: the pair
partner when the node is paired, nothing when it is the odd carry-up. -/
def siblingAt (l : List ℕ) (i : ℕ) : List ℕ :=
  if i % 2 = 1 then [l.getD (i - 1) 0]
  else if i + 1 < l.length then [l.getD (i + 1) 0]
  else []

/-- Path walk of `proofFor` with the same iteration budget as
`computeRootAux`. -/
def proofForAux (H : ℕ → ℕ → ℕ) : ℕ → List ℕ → ℕ → List ℕ
  | _, [], _ => []
  | _, [_], _ => []
  | 0, _ :: _ :: _, _ => []
  | fuel + 1, a :: b :: rest, i =>
    siblingAt (a :: b :: rest) i ++
      proofForAux H fuel (buildLevel H (a :: b :: rest)) (i / 2)

/-- Modelled from the spec: the proof path for the leaf at index `i` (§4.3):
at each level record the sibling of the path node (no element for an
unpaired carry-up), then continue from the parent, at index `i / 2` of the
next level. -/
def proofFor (H : ℕ → ℕ → ℕ) (l : List ℕ) (i : ℕ) : List ℕ :=
  proofForAux H l.length l i

/-- Index of the first occurrence of `fp` in a list, if any. -/
def idxOf (fp : ℕ) : List ℕ → Option ℕ
  | [] => none
  | a :: rest => if a = fp then some 0 else (idxOf fp rest).map (· + 1)

/-- Modelled from the spec: ProofService.prove (§4.3). Locate the fingerprint
among the batch's stored leaves by exact match, first occurrence; `none`
(NotFound) when absent, otherwise the sibling path of that leaf. The
ProofService itself is not in the available sources. -/
def prove (H : ℕ → ℕ → ℕ) (leaves : List ℕ) (fp : ℕ) : Option (List ℕ) :=
  (idxOf fp leaves).map (proofFor H leaves)

/-! ## Ledger contract state, from `AuditProofBatch.sol` -/

/-- The `Batch` struct of the contract. -/
structure Batch where
  merkleRoot : ℕ
  eventCount : ℕ
  timestamp : ℕ
  submitter : ℕ
deriving DecidableEq, Repr

/-- The all-zero `Batch`, the default value of the `batches` mapping. -/
def zeroBatch : Batch := ⟨0, 0, 0, 0⟩

/-- Contract storage: `owner`, `batchCount` and the three mappings.
Solidity mappings are total with zero defaults, so they are functions. -/
structure LedgerState where
  owner : ℕ
  batchCount : ℕ
  batches : ℕ → Batch
  rootExists : ℕ → Bool
  rootToBatchId : ℕ → ℕ

/-- The constructor: `owner = msg.sender; batchCount = 0`, mappings empty. -/
def initialState (deployer : ℕ) : LedgerState where
  owner := deployer
  batchCount := 0
  batches := fun _ => zeroBatch
  rootExists := fun _ => false
  rootToBatchId := fun _ => 0

/-- `storeBatch(root, eventCount)` (lines 66–84), with the `onlyOwner`
modifier (lines 48–51). The four `require`s in source order, then the
increment of `batchCount` and the three mapping writes. `sender` is
`msg.sender`, `ts` is `block.timestamp`. -/
def storeBatch (s : LedgerState) (sender root eventCount ts : ℕ) :
    Except String LedgerState :=
  if sender ≠ s.owner then .error "Not authorized"
  else if root = 0 then .error "Empty root"
  else if s.rootExists root then .error "Root already stored"
  else if eventCount = 0 then .error "No events"
  else
    let bid := s.batchCount + 1
    .ok { s with
      batchCount := bid
      batches := fun i => if i = bid then ⟨root, eventCount, ts, sender⟩ else s.batches i
      rootExists := fun r => if r = root then true else s.rootExists r
      rootToBatchId := fun r => if r = root then bid else s.rootToBatchId r }

/-- Transaction semantics of a `storeBatch` call: a reverted call leaves the
storage unchanged. -/
def runStore (s : LedgerState) (sender root eventCount ts : ℕ) : LedgerState :=
  match storeBatch s sender root eventCount ts with
  | .ok s' => s'
  | .error _ => s

/-- `verifyInclusion(leaf, proof, root)` (lines 93–112): requires the root to
be stored (`require(rootExists[root], "Root not found")`), then replays the
combining loop and compares with the root. The emitted `InclusionVerified`
event is a log entry only; the contract storage is not written. -/
def verifyInclusion (H : ℕ → ℕ → ℕ) (s : LedgerState) (leaf : ℕ)
    (proof : List ℕ) (root : ℕ) : Except String Bool :=
  if s.rootExists root then .ok (verify H leaf proof root)
  else .error "Root not found"

/-- `getBatch(batchId)` (lines 117–126): requires
`batchId > 0 && batchId <= batchCount`, then returns the stored fields. -/
def getBatch (s : LedgerState) (batchId : ℕ) : Except String (ℕ × ℕ × ℕ × ℕ) :=
  if 0 < batchId ∧ batchId ≤ s.batchCount then
    let b := s.batches batchId
    .ok (b.merkleRoot, b.eventCount, b.timestamp, b.submitter)
  else .error "Invalid batch ID"

/-- `isRootStored(root)` (lines 131–133). -/
def isRootStored (s : LedgerState) (root : ℕ) : Bool :=
  s.rootExists root

/-- States reachable from the freshly deployed contract by successful
`storeBatch` calls. -/
inductive Reachable (deployer : ℕ) : LedgerState → Prop where
  | init : Reachable deployer (initialState deployer)
  | step {s s' : LedgerState} {sender root ec ts : ℕ} :
      Reachable deployer s → storeBatch s sender root ec ts = .ok s' →
      Reachable deployer s'

/-- Bookkeeping invariant of the contract storage: exactly the slots
`1..batchCount` hold genuine batches, and the two root mappings agree with
the stored batches in both directions. -/
def Inv (s : LedgerState) : Prop :=
  (∀ bid, 1 ≤ bid → bid ≤ s.batchCount → (s.batches bid).merkleRoot ≠ 0)
  ∧ (∀ bid, bid = 0 ∨ s.batchCount < bid → s.batches bid = zeroBatch)
  ∧ (∀ r, s.rootExists r = true →
      1 ≤ s.rootToBatchId r ∧ s.rootToBatchId r ≤ s.batchCount ∧
      (s.batches (s.rootToBatchId r)).merkleRoot = r)
  ∧ (∀ bid, 1 ≤ bid → bid ≤ s.batchCount →
      s.rootExists ((s.batches bid).merkleRoot) = true ∧
      s.rootToBatchId ((s.batches bid).merkleRoot) = bid)

/-! ## Ledger anchoring (off-chain), modelled from the spec -/

/-- Outcome of an anchoring attempt (§4.4). -/
inductive AnchorResult where
  | confirmed (txRef : ℕ)
  | duplicateRoot
  | failed (msg : String)
deriving DecidableEq, Repr

/-- Modelled from the spec: LedgerAnchor.submit (§4.4). Before submitting,
check whether the root is already registered on the ledger and
short-circuit to `failed: duplicate_root` without resubmitting; otherwise
submit via `storeBatch`, recording the ledger's reference on success. The
LedgerAnchor service itself is not in the available sources. -/
def submitAnchor (s : LedgerState) (sender root ec ts : ℕ) :
    AnchorResult × LedgerState :=
  if isRootStored s root then (.duplicateRoot, s)
  else
    match storeBatch s sender root ec ts with
    | .ok s' => (.confirmed s'.batchCount, s')
    | .error e => (.failed e, s)

/-! ## Event ingest queue and scheduler (off-chain), modelled from the spec -/

/-- Modelled from the spec: EventIngestQueue state (§4.1): the next sequence
number to assign and the pending records, each a pair of sequence number
and fingerprint, in enqueue order. The queue service itself is not in the
available sources. -/
structure QueueState where
  nextSeq : ℕ
  pending : List (ℕ × ℕ)
deriving DecidableEq, Repr

/-- The queue of a fresh service: nothing pending, sequence numbers from 0. -/
def emptyQueue : QueueState := ⟨0, []⟩

/-- Modelled from the spec: `enqueue(fingerprint) -> sequence_number` (§4.1):
append the record, return its strictly increasing sequence number. -/
def enqueue (q : QueueState) (fp : ℕ) : QueueState × ℕ :=
  (⟨q.nextSeq + 1, q.pending ++ [(q.nextSeq, fp)]⟩, q.nextSeq)

/-- Modelled from the spec: `drain_up_to(n)` (§4.1): remove and return the
first `n` pending records; the only operation that removes records. -/
def drainUpTo (q : QueueState) (n : ℕ) : List (ℕ × ℕ) × QueueState :=
  (q.pending.take n, ⟨q.nextSeq, q.pending.drop n⟩)

/-- Enqueue a whole list of fingerprints in order. -/
def enqueueAll (q : QueueState) (fps : List ℕ) : QueueState :=
  fps.foldl (fun q fp => (enqueue q fp).1) q

/-- The records that enqueueing `fps` produces from sequence number `s` on. -/
def tagFrom (s : ℕ) : List ℕ → List (ℕ × ℕ)
  | [] => []
  | fp :: rest => (s, fp) :: tagFrom (s + 1) rest

/-- Modelled from the spec: the BatchScheduler's repeated triggers
(§4.5, §8): each trigger drains some number of records from the queue and
seals them as one batch; `ns` lists the drain sizes of the successive
triggers. -/
def drainRounds (q : QueueState) : List ℕ → List (List (ℕ × ℕ)) × QueueState
  | [] => ([], q)
  | n :: ns =>
    let step := drainUpTo q n
    let rest := drainRounds step.2 ns
    (step.1 :: rest.1, rest.2)

/-! ## Helper lemmas about the combining rule and level construction -/

/-- The combining step is symmetric: the smaller word goes first either way. -/
theorem combine_comm (H : ℕ → ℕ → ℕ) (a b : ℕ) : combine H a b = combine H b a := by
  unfold combine
  by_cases hab : a ≤ b
  · by_cases hba : b ≤ a
    · have : a = b := Nat.le_antisymm hab hba
      subst this; rfl
    · rw [if_pos hab, if_neg hba]
  · by_cases hba : b ≤ a
    · rw [if_neg hab, if_pos hba]
    · omega

/-- The combining step is the spec's `H(min(a,b) ++ max(a,b))`. -/
theorem combine_eq_minmax (H : ℕ → ℕ → ℕ) (a b : ℕ) :
    combine H a b = H (min a b) (max a b) := by
  unfold combine
  by_cases hab : a ≤ b
  · rw [if_pos hab, Nat.min_eq_left hab, Nat.max_eq_right hab]
  · rw [if_neg hab, Nat.min_eq_right (by omega), Nat.max_eq_left (by omega)]

/-- Number of nodes of the next level: pairs, plus the odd carry. -/
theorem buildLevel_length (H : ℕ → ℕ → ℕ) :
    ∀ l : List ℕ, (buildLevel H l).length = (l.length + 1) / 2
  | [] => by simp [buildLevel]
  | [_] => by simp [buildLevel]
  | _ :: _ :: rest => by
    simp only [buildLevel, List.length_cons, buildLevel_length H rest]
    omega

/-- Node `j` of the next level: the combined pair `(2j, 2j+1)` when the pair
is complete, the unpaired carry otherwise (out-of-range indices give the
default on both sides). -/
theorem buildLevel_getD (H : ℕ → ℕ → ℕ) :
    ∀ (l : List ℕ) (j : ℕ),
      (buildLevel H l).getD j 0 =
        if 2 * j + 1 < l.length then
          combine H (l.getD (2 * j) 0) (l.getD (2 * j + 1) 0)
        else l.getD (2 * j) 0
  | [], j => by simp [buildLevel]
  | [a], j => by
    cases j with
    | zero => simp [buildLevel]
    | succ j =>
      rw [if_neg (by simp only [List.length_cons, List.length_nil]; omega)]
      simp only [buildLevel]
      rw [List.getD_eq_default _ _ (by simp),
        List.getD_eq_default _ _ (by simp only [List.length_cons, List.length_nil]; omega)]
  | a :: b :: rest, j => by
    cases j with
    | zero =>
      rw [if_pos (by simp)]
      simp [buildLevel]
    | succ j =>
      have ih := buildLevel_getD H rest j
      simp only [buildLevel, List.getD_cons_succ, List.length_cons]
      rw [ih]
      have h1 : 2 * (j + 1) = 2 * j + 1 + 1 := by omega
      rw [h1]
      simp only [List.getD_cons_succ]
      by_cases hc : 2 * j + 1 < rest.length
      · rw [if_pos hc, if_pos (by omega)]
      · rw [if_neg hc, if_neg (by omega)]

/-- One step of the verifier fold over this level's recorded sibling lands
exactly on the parent node of the next level. -/
theorem foldl_siblingAt (H : ℕ → ℕ → ℕ) (l : List ℕ) (i : ℕ) (hi : i < l.length) :
    List.foldl (combine H) (l.getD i 0) (siblingAt l i) =
      (buildLevel H l).getD (i / 2) 0 := by
  unfold siblingAt
  by_cases hodd : i % 2 = 1
  · rw [if_pos hodd]
    simp only [List.foldl_cons, List.foldl_nil]
    rw [buildLevel_getD]
    have h1 : 2 * (i / 2) = i - 1 := by omega
    have h2 : 2 * (i / 2) + 1 = i := by omega
    rw [h2, h1, if_pos hi]
    exact combine_comm H (l.getD i 0) (l.getD (i - 1) 0)
  · rw [if_neg hodd]
    by_cases hnext : i + 1 < l.length
    · rw [if_pos hnext]
      simp only [List.foldl_cons, List.foldl_nil]
      rw [buildLevel_getD]
      have h1 : 2 * (i / 2) = i := by omega
      rw [h1, if_pos (by omega)]
    · rw [if_neg hnext]
      simp only [List.foldl_nil]
      rw [buildLevel_getD]
      have h1 : 2 * (i / 2) = i := by omega
      rw [h1, if_neg (by omega)]

/-- Replaying the recorded path from any leaf reaches the computed root. -/
theorem computeRootAux_eq_foldl (H : ℕ → ℕ → ℕ) :
    ∀ (fuel : ℕ) (l : List ℕ) (i : ℕ), l.length ≤ fuel → i < l.length →
      computeRootAux H fuel l =
        some (List.foldl (combine H) (l.getD i 0) (proofForAux H fuel l i)) := by
  intro fuel
  induction fuel with
  | zero => intro l i hl hi; omega
  | succ fuel ih =>
    intro l i hl hi
    match l with
    | [] => simp at hi
    | [a] =>
      have : i = 0 := by simp at hi; omega
      subst this
      simp [computeRootAux, proofForAux]
    | a :: b :: rest =>
      simp only [computeRootAux, proofForAux]
      rw [List.foldl_append, foldl_siblingAt H _ i hi]
      apply ih
      · rw [buildLevel_length]
        simp only [List.length_cons] at hl ⊢
        omega
      · rw [buildLevel_length]
        simp only [List.length_cons] at hi ⊢
        omega

/-- `computeRoot` expressed as the verifier fold from the leaf at index `i`
along its generated proof. -/
theorem computeRoot_eq_foldl (H : ℕ → ℕ → ℕ) (l : List ℕ) (i : ℕ)
    (hi : i < l.length) :
    computeRoot H l =
      some (List.foldl (combine H) (l.getD i 0) (proofFor H l i)) :=
  computeRootAux_eq_foldl H l.length l i (Nat.le_refl _) hi

/-- The path walk does not depend on the iteration budget, as long as the
budget covers the list. -/
theorem proofForAux_fuel (H : ℕ → ℕ → ℕ) :
    ∀ (f1 f2 : ℕ) (l : List ℕ) (i : ℕ), l.length ≤ f1 → l.length ≤ f2 →
      proofForAux H f1 l i = proofForAux H f2 l i := by
  intro f1
  induction f1 with
  | zero =>
    intro f2 l i h1 _
    match l with
    | [] => cases f2 <;> simp [proofForAux]
    | _ :: _ => simp at h1
  | succ f1 ih =>
    intro f2 l i h1 h2
    match l with
    | [] => cases f2 <;> simp [proofForAux]
    | [a] => cases f2 <;> simp [proofForAux]
    | a :: b :: rest =>
      match f2, h2 with
      | f2 + 1, h2 =>
        simp only [proofForAux, List.append_cancel_left_eq]
        apply ih
        · rw [buildLevel_length]
          simp only [List.length_cons] at h1 ⊢
          omega
        · rw [buildLevel_length]
          simp only [List.length_cons] at h2 ⊢
          omega

/-- `idxOf` finds nothing exactly on the non-members. -/
theorem idxOf_eq_none (fp : ℕ) :
    ∀ l : List ℕ, idxOf fp l = none ↔ fp ∉ l
  | [] => by simp [idxOf]
  | a :: rest => by
    simp only [idxOf, List.mem_cons]
    by_cases h : a = fp
    · simp [h]
    · rw [if_neg h]
      simp only [Option.map_eq_none', idxOf_eq_none fp rest]
      constructor
      · intro hn hc
        rcases hc with hc | hc
        · exact h hc.symm
        · exact hn hc
      · intro hn
        exact fun hc => hn (Or.inr hc)

/-- What a successful `idxOf` means: an in-range index holding the target,
with no earlier occurrence. -/
theorem idxOf_spec (fp : ℕ) :
    ∀ (l : List ℕ) (i : ℕ), idxOf fp l = some i →
      i < l.length ∧ l.getD i 0 = fp ∧ ∀ j, j < i → l.getD j 0 ≠ fp
  | [], i => by simp [idxOf]
  | a :: rest, i => by
    simp only [idxOf]
    by_cases h : a = fp
    · rw [if_pos h]
      intro hs
      have : i = 0 := by simpa using hs.symm
      subst this
      exact ⟨by simp, by simpa using h, fun j hj => by omega⟩
    · rw [if_neg h]
      intro hs
      obtain ⟨i', hi', rfl⟩ := Option.map_eq_some'.mp hs
      obtain ⟨h1, h2, h3⟩ := idxOf_spec fp rest i' hi'
      refine ⟨by simp; omega, by simpa using h2, ?_⟩
      intro j hj
      cases j with
      | zero => simpa using h
      | succ j =>
        simp only [List.getD_cons_succ]
        exact h3 j (by omega)

/-- Members are found. -/
theorem idxOf_of_mem (fp : ℕ) (l : List ℕ) (h : fp ∈ l) :
    ∃ i, idxOf fp l = some i := by
  cases heq : idxOf fp l with
  | none => exact absurd h ((idxOf_eq_none fp l).mp heq)
  | some i => exact ⟨i, rfl⟩

/-! ## Claims about proof generation and verification -/

/-- C1. Round-trip: for every non-empty ordered leaf list and every leaf in
it, `prove` yields a proof, the batch has a root, and `verify` — the replay
of `H(min(current,sibling) ++ max(current,sibling))` over the proof
elements, succeeding iff the final value equals the root — accepts that
proof against that root. -/
theorem prove_verify_roundtrip (H : ℕ → ℕ → ℕ) (l : List ℕ) (fp : ℕ)
    (_hne : l ≠ []) (hmem : fp ∈ l) :
    ∃ p r, prove H l fp = some p ∧ computeRoot H l = some r ∧
      verify H fp p r = true := by
  obtain ⟨i, hi⟩ := idxOf_of_mem fp l hmem
  obtain ⟨hlen, hget, -⟩ := idxOf_spec fp l i hi
  refine ⟨proofFor H l i, List.foldl (combine H) fp (proofFor H l i), ?_, ?_, ?_⟩
  · simp [prove, hi]
  · have h := computeRoot_eq_foldl H l i hlen
    rwa [hget] at h
  · simp [verify]

/-- Witness for C1 at the concrete batch `[1, 2, 3]`, leaf `2`. -/
theorem prove_verify_roundtrip_witness :
    (([1, 2, 3] : List ℕ) ≠ []) ∧ (2 ∈ ([1, 2, 3] : List ℕ)) ∧
    (∃ p r, prove Nat.pair [1, 2, 3] 2 = some p ∧
      computeRoot Nat.pair [1, 2, 3] = some r ∧ verify Nat.pair 2 p r = true) :=
  ⟨by decide, by decide,
    prove_verify_roundtrip Nat.pair [1, 2, 3] 2 (by decide) (by decide)⟩

/-- C2. Determinism and order-independence: sealing the same ordered leaf
set always yields the same root (sealing is a pure function), and the
combined hash of a pair is symmetric, because the pairwise rule is
`H(min(a,b) ++ max(a,b))`. -/
theorem seal_deterministic (H : ℕ → ℕ → ℕ) (l : List ℕ) (a b : ℕ) :
    computeRoot H l = computeRoot H l
    ∧ combine H a b = combine H b a
    ∧ combine H a b = H (min a b) (max a b) :=
  ⟨rfl, combine_comm H a b, combine_eq_minmax H a b⟩

/-- C3. Odd-node carry-up: at a level of odd size the final node moves up
unchanged, with no proof element recorded there; a single-leaf batch has
root equal to its leaf, i.e. the empty proof verifies exactly when
leaf = root. -/
theorem odd_carry_up (H : ℕ → ℕ → ℕ) (l : List ℕ)
    (h2 : 2 ≤ l.length) (hodd : l.length % 2 = 1) :
    (buildLevel H l).getD (l.length / 2) 0 = l.getD (l.length - 1) 0
    ∧ siblingAt l (l.length - 1) = []
    ∧ proofFor H l (l.length - 1) = proofFor H (buildLevel H l) ((l.length - 1) / 2)
    ∧ (∀ a : ℕ, computeRoot H [a] = some a)
    ∧ (∀ leaf root : ℕ, verify H leaf [] root = true ↔ leaf = root) := by
  have hsib : siblingAt l (l.length - 1) = [] := by
    unfold siblingAt
    rw [if_neg (by omega), if_neg (by omega)]
  refine ⟨?_, hsib, ?_, fun a => rfl, fun leaf root => by simp [verify]⟩
  · rw [buildLevel_getD]
    have h1 : 2 * (l.length / 2) = l.length - 1 := by omega
    rw [h1, if_neg (by omega)]
  · obtain ⟨a, b, rest, rfl⟩ : ∃ a b rest, l = a :: b :: rest := by
      match l, h2 with
      | a :: b :: rest, _ => exact ⟨a, b, rest, rfl⟩
    unfold proofFor
    simp only [List.length_cons]
    show proofForAux H (rest.length + 1 + 1) (a :: b :: rest) _ = _
    rw [proofForAux]
    rw [show (a :: b :: rest).length = rest.length + 1 + 1 from by simp] at hsib
    rw [hsib, List.nil_append]
    apply proofForAux_fuel
    · rw [buildLevel_length]
      simp only [List.length_cons]
      omega
    · exact Nat.le_refl _

/-- Witness for C3 at the concrete level `[1, 2, 3]`. -/
theorem odd_carry_up_witness :
    (2 ≤ ([1, 2, 3] : List ℕ).length) ∧ (([1, 2, 3] : List ℕ).length % 2 = 1) ∧
    ((buildLevel Nat.pair [1, 2, 3]).getD 1 0 = ([1, 2, 3] : List ℕ).getD 2 0
     ∧ siblingAt [1, 2, 3] 2 = []
     ∧ proofFor Nat.pair [1, 2, 3] 2 = proofFor Nat.pair (buildLevel Nat.pair [1, 2, 3]) 1
     ∧ (∀ a : ℕ, computeRoot Nat.pair [a] = some a)
     ∧ (∀ leaf root : ℕ, verify Nat.pair leaf [] root = true ↔ leaf = root)) :=
  ⟨by decide, by decide, odd_carry_up Nat.pair [1, 2, 3] (by decide) (by decide)⟩

/-- C4. The three-leaf scenario: sealing `[A, B, C]` pairs `A` and `B` into
`P1 = combine A B`, carries `C` up unchanged, and roots at
`combine P1 C`; the proof for `C` is `[P1]` and the proof for `A` is
`[B, C]`; both verify against that root, and `C`'s proof fails against the
root sealed from `[A, B, D]`. -/
theorem three_leaf_scenario (H : ℕ → ℕ → ℕ) (A B C D : ℕ)
    (hinj : Function.Injective2 H)
    (hCA : C ≠ A) (hCB : C ≠ B) (hCD : C ≠ D) :
    computeRoot H [A, B, C] = some (combine H (combine H A B) C)
    ∧ prove H [A, B, C] C = some [combine H A B]
    ∧ prove H [A, B, C] A = some [B, C]
    ∧ verify H C [combine H A B] (combine H (combine H A B) C) = true
    ∧ verify H A [B, C] (combine H (combine H A B) C) = true
    ∧ computeRoot H [A, B, D] = some (combine H (combine H A B) D)
    ∧ verify H C [combine H A B] (combine H (combine H A B) D) = false := by
  have hne : combine H (combine H A B) C ≠ combine H (combine H A B) D := by
    intro heq
    rw [combine_eq_minmax H (combine H A B) C,
      combine_eq_minmax H (combine H A B) D] at heq
    obtain ⟨h1, h2⟩ := hinj heq
    exact hCD (by omega)
  refine ⟨rfl, ?_, ?_, ?_, ?_, rfl, ?_⟩
  · simp only [prove, idxOf,
      if_neg (show ¬(A = C) from fun h => hCA h.symm),
      if_neg (show ¬(B = C) from fun h => hCB h.symm), if_pos rfl]
    rfl
  · simp only [prove, idxOf, if_pos rfl]
    rfl
  · simp [verify, combine_comm H C (combine H A B)]
  · simp [verify]
  · simp only [verify, List.foldl_cons, List.foldl_nil,
      combine_comm H C (combine H A B)]
    exact beq_eq_false_iff_ne.mpr hne

/-- Witness for C4 at `A, B, C, D = 1, 2, 3, 4` and the injective pairing
function as `H`. -/
theorem three_leaf_scenario_witness :
    Function.Injective2 Nat.pair ∧ (3 : ℕ) ≠ 1 ∧ (3 : ℕ) ≠ 2 ∧ (3 : ℕ) ≠ 4 ∧
    (computeRoot Nat.pair [1, 2, 3] = some (combine Nat.pair (combine Nat.pair 1 2) 3)
     ∧ prove Nat.pair [1, 2, 3] 3 = some [combine Nat.pair 1 2]
     ∧ prove Nat.pair [1, 2, 3] 1 = some [2, 3]
     ∧ verify Nat.pair 3 [combine Nat.pair 1 2] (combine Nat.pair (combine Nat.pair 1 2) 3) = true
     ∧ verify Nat.pair 1 [2, 3] (combine Nat.pair (combine Nat.pair 1 2) 3) = true
     ∧ computeRoot Nat.pair [1, 2, 4] = some (combine Nat.pair (combine Nat.pair 1 2) 4)
     ∧ verify Nat.pair 3 [combine Nat.pair 1 2] (combine Nat.pair (combine Nat.pair 1 2) 4) = false) :=
  ⟨fun _ _ _ _ h => Nat.pair_eq_pair.mp h, by decide, by decide, by decide,
    three_leaf_scenario Nat.pair 1 2 3 4 (fun _ _ _ _ h => Nat.pair_eq_pair.mp h)
      (by decide) (by decide) (by decide)⟩

/-! ## Claims about the ledger contract -/

/-- C5, counterexample. `verifyInclusion`'s outcome is not independent of the
stored roots: on the same inputs `(leaf, proof, root) = (1, [], 5)` the
fresh contract reverts with "Root not found" while a contract that has
stored root `5` returns a boolean, so the two runs differ. -/
theorem verifyInclusion_store_dependent :
    verifyInclusion Nat.pair (initialState 0) 1 [] 5 = .error "Root not found"
    ∧ verifyInclusion Nat.pair (runStore (initialState 0) 0 5 1 0) 1 [] 5 = .ok false
    ∧ verifyInclusion Nat.pair (initialState 0) 1 [] 5 ≠
        verifyInclusion Nat.pair (runStore (initialState 0) 0 5 1 0) 1 [] 5 :=
  ⟨rfl, rfl, fun h => Except.noConfusion h⟩

/-- C5, amended. `verifyInclusion` writes no storage, but it does consult the
batch store: it reverts unless the root is stored. Whenever the root is
stored, its result is the pure replay `verify` of its three inputs, so two
runs on equal inputs in any two states that both store the root agree. -/
theorem verifyInclusion_pure_given_root (H : ℕ → ℕ → ℕ) (s₁ s₂ : LedgerState)
    (leaf : ℕ) (proof : List ℕ) (root : ℕ)
    (h₁ : s₁.rootExists root = true) (h₂ : s₂.rootExists root = true) :
    verifyInclusion H s₁ leaf proof root = verifyInclusion H s₂ leaf proof root
    ∧ verifyInclusion H s₁ leaf proof root = .ok (verify H leaf proof root) := by
  unfold verifyInclusion
  rw [h₁, h₂]
  simp

/-- Witness for the amended C5 in a state that stores root `5`. -/
theorem verifyInclusion_pure_given_root_witness :
    ((runStore (initialState 0) 0 5 1 0).rootExists 5 = true) ∧
    (verifyInclusion Nat.pair (runStore (initialState 0) 0 5 1 0) 2 [] 5 =
        verifyInclusion Nat.pair (runStore (initialState 0) 0 5 1 0) 2 [] 5
     ∧ verifyInclusion Nat.pair (runStore (initialState 0) 0 5 1 0) 2 [] 5 =
        .ok (verify Nat.pair 2 [] 5)) :=
  ⟨rfl, verifyInclusion_pure_given_root Nat.pair _ _ 2 [] 5 rfl rfl⟩

/-- C6, counterexample. `storeBatch` also fails on a zero root: with the
owner calling, root `0` not stored and a positive event count, the call
still reverts with "Empty root", so "fails iff root already stored or
event_count = 0" is false. -/
theorem storeBatch_rejects_zero_root :
    (initialState 0).rootExists 0 = false
    ∧ (1 : ℕ) ≠ 0
    ∧ storeBatch (initialState 0) 0 0 1 0 = .error "Empty root" :=
  ⟨rfl, by decide, rfl⟩

/-- C6, amended. `storeBatch` succeeds iff the caller is the owner, the root
is nonzero and not already stored, and the event count is nonzero; it
fails in every other case. -/
theorem storeBatch_success_iff (s : LedgerState) (sender root eventCount ts : ℕ) :
    (∃ s', storeBatch s sender root eventCount ts = .ok s') ↔
      (sender = s.owner ∧ root ≠ 0 ∧ s.rootExists root = false ∧ eventCount ≠ 0) := by
  unfold storeBatch
  split_ifs with h1 h2 h3 h4 <;> simp_all

/-- C7. Idempotent anchoring: when the root is already stored, the anchor
short-circuits to duplicate-root without submitting, `storeBatch` cannot
succeed, and a duplicate submission leaves the ledger state unchanged. -/
theorem anchor_duplicate_root_noop (s : LedgerState) (sender root ec ts : ℕ)
    (hdup : s.rootExists root = true) :
    submitAnchor s sender root ec ts = (AnchorResult.duplicateRoot, s)
    ∧ (∀ s', storeBatch s sender root ec ts ≠ .ok s')
    ∧ runStore s sender root ec ts = s := by
  have hstore : ∀ s', storeBatch s sender root ec ts ≠ .ok s' := by
    intro s'
    unfold storeBatch
    split_ifs with h1 h2 <;> simp_all
  refine ⟨?_, hstore, ?_⟩
  · unfold submitAnchor isRootStored
    rw [hdup]
    simp
  · unfold runStore
    cases heq : storeBatch s sender root ec ts with
    | ok s' => exact absurd heq (hstore s')
    | error e => rfl

/-- Witness for C7 in a state that stores root `5`. -/
theorem anchor_duplicate_root_noop_witness :
    ((runStore (initialState 0) 0 5 1 0).rootExists 5 = true) ∧
    (submitAnchor (runStore (initialState 0) 0 5 1 0) 0 5 2 7 =
        (AnchorResult.duplicateRoot, runStore (initialState 0) 0 5 1 0)
     ∧ (∀ s', storeBatch (runStore (initialState 0) 0 5 1 0) 0 5 2 7 ≠ .ok s')
     ∧ runStore (runStore (initialState 0) 0 5 1 0) 0 5 2 7 =
        runStore (initialState 0) 0 5 1 0) :=
  ⟨rfl, anchor_duplicate_root_noop _ 0 5 2 7 rfl⟩

/-- C8. Negative lookup: a fingerprint absent from the batch's leaves gives
`NotFound` (`none`), a valid negative result; a present fingerprint is
located at its first occurrence. -/
theorem prove_negative_lookup (H : ℕ → ℕ → ℕ) (l : List ℕ) (fp : ℕ) :
    (fp ∉ l → prove H l fp = none)
    ∧ (fp ∈ l → ∃ i, idxOf fp l = some i ∧ prove H l fp = some (proofFor H l i)
        ∧ l.getD i 0 = fp ∧ ∀ j, j < i → l.getD j 0 ≠ fp) := by
  constructor
  · intro h
    simp [prove, (idxOf_eq_none fp l).mpr h]
  · intro h
    obtain ⟨i, hi⟩ := idxOf_of_mem fp l h
    obtain ⟨-, h2, h3⟩ := idxOf_spec fp l i hi
    exact ⟨i, hi, by simp [prove, hi], h2, h3⟩

/-- Witness for C8: `9` is not among `[7, 5]`; duplicated `7` in `[7, 5, 7]`
is found at its first occurrence. -/
theorem prove_negative_lookup_witness :
    (9 ∉ ([7, 5] : List ℕ) ∧ prove Nat.pair [7, 5] 9 = none)
    ∧ (7 ∈ ([7, 5, 7] : List ℕ) ∧ ∃ i, idxOf 7 [7, 5, 7] = some i ∧
        prove Nat.pair [7, 5, 7] 7 = some (proofFor Nat.pair [7, 5, 7] i)
        ∧ ([7, 5, 7] : List ℕ).getD i 0 = 7
        ∧ ∀ j, j < i → ([7, 5, 7] : List ℕ).getD j 0 ≠ 7) :=
  ⟨⟨by decide, (prove_negative_lookup Nat.pair [7, 5] 9).1 (by decide)⟩,
   ⟨by decide, (prove_negative_lookup Nat.pair [7, 5, 7] 7).2 (by decide)⟩⟩

/-! ## Claims about the ingest queue and scheduler -/

/-- Enqueueing a list appends its tagged records and advances the sequence
counter by the list's length. -/
theorem enqueueAll_spec :
    ∀ (fps : List ℕ) (q : QueueState),
      enqueueAll q fps =
        ⟨q.nextSeq + fps.length, q.pending ++ tagFrom q.nextSeq fps⟩
  | [], q => by simp [enqueueAll, tagFrom]
  | fp :: rest, q => by
    have step : enqueueAll q (fp :: rest) = enqueueAll (enqueue q fp).1 rest := rfl
    rw [step, enqueueAll_spec rest (enqueue q fp).1]
    simp only [enqueue, tagFrom, List.length_cons, QueueState.mk.injEq]
    constructor
    · omega
    · rw [List.append_assoc]
      rfl

/-- The drained batches followed by the remaining queue recover the original
pending records. -/
theorem drainRounds_join :
    ∀ (ns : List ℕ) (q : QueueState),
      (drainRounds q ns).1.flatten ++ (drainRounds q ns).2.pending = q.pending
  | [], q => by simp [drainRounds]
  | n :: ns, q => by
    simp only [drainRounds, drainUpTo, List.flatten_cons]
    rw [List.append_assoc, drainRounds_join ns _]
    exact List.take_append_drop n q.pending

/-- Tagged records carry exactly the original fingerprints in order. -/
theorem tagFrom_map_snd :
    ∀ (s : ℕ) (fps : List ℕ), (tagFrom s fps).map Prod.snd = fps
  | _, [] => rfl
  | s, _ :: rest => by simp [tagFrom, tagFrom_map_snd (s + 1) rest]

/-- Sequence numbers of tagged records are bounded below by the start. -/
theorem tagFrom_fst_le :
    ∀ (s : ℕ) (fps : List ℕ), ∀ p ∈ tagFrom s fps, s ≤ p.1
  | _, [] => by simp [tagFrom]
  | s, fp :: rest => by
    simp only [tagFrom, List.mem_cons]
    rintro p (rfl | h)
    · simp
    · have := tagFrom_fst_le (s + 1) rest p h
      omega

/-- Sequence numbers of tagged records are strictly increasing. -/
theorem tagFrom_sorted :
    ∀ (s : ℕ) (fps : List ℕ), List.Sorted (· < ·) ((tagFrom s fps).map Prod.fst)
  | _, [] => by simp [tagFrom]
  | s, fp :: rest => by
    simp only [tagFrom, List.map_cons]
    refine List.sorted_cons.mpr ⟨?_, tagFrom_sorted (s + 1) rest⟩
    intro b hb
    obtain ⟨p, hp, rfl⟩ := List.mem_map.mp hb
    have := tagFrom_fst_le (s + 1) rest p hp
    omega

/-- No tagged record repeats. -/
theorem tagFrom_nodup (s : ℕ) (fps : List ℕ) : (tagFrom s fps).Nodup :=
  List.Nodup.of_map Prod.fst (tagFrom_sorted s fps).nodup

/-- C9. Completeness and exclusivity of batching: enqueue a list of
fingerprints, then trigger the scheduler repeatedly until the queue is
empty. The concatenation of the drained batches is exactly the enqueued
records; their fingerprints come back complete and in order; their
sequence numbers are strictly increasing; every enqueued record lands in
the batches exactly once; and a single drain is exclusive — nothing it
returns is still visible in the queue it leaves behind. -/
theorem batching_complete_exclusive (fps ns : List ℕ)
    (hempty : (drainRounds (enqueueAll emptyQueue fps) ns).2.pending = []) :
    ((drainRounds (enqueueAll emptyQueue fps) ns).1.flatten = tagFrom 0 fps)
    ∧ ((drainRounds (enqueueAll emptyQueue fps) ns).1.flatten.map Prod.snd = fps)
    ∧ List.Sorted (· < ·)
        ((drainRounds (enqueueAll emptyQueue fps) ns).1.flatten.map Prod.fst)
    ∧ (drainRounds (enqueueAll emptyQueue fps) ns).1.flatten.Nodup
    ∧ (∀ (q : QueueState) (n : ℕ), q.pending.Nodup →
        ∀ p ∈ (drainUpTo q n).1, p ∉ (drainUpTo q n).2.pending) := by
  have hq : (enqueueAll emptyQueue fps).pending = tagFrom 0 fps := by
    rw [enqueueAll_spec]
    rfl
  have hjoin : (drainRounds (enqueueAll emptyQueue fps) ns).1.flatten = tagFrom 0 fps := by
    have h := drainRounds_join ns (enqueueAll emptyQueue fps)
    rw [hempty, List.append_nil] at h
    rw [h, hq]
  refine ⟨hjoin, ?_, ?_, ?_, ?_⟩
  · rw [hjoin]
    exact tagFrom_map_snd 0 fps
  · rw [hjoin]
    exact tagFrom_sorted 0 fps
  · rw [hjoin]
    exact tagFrom_nodup 0 fps
  · intro q n hnd p hp
    simp only [drainUpTo] at hp ⊢
    rw [← List.take_append_drop n q.pending] at hnd
    have hdisj := (List.nodup_append.mp hnd).2.2
    exact fun hmem => hdisj hp hmem

/-- Witness for C9: three fingerprints drained in two rounds of sizes 2
and 5. -/
theorem batching_complete_exclusive_witness :
    ((drainRounds (enqueueAll emptyQueue [10, 20, 30]) [2, 5]).2.pending = [])
    ∧ ((drainRounds (enqueueAll emptyQueue [10, 20, 30]) [2, 5]).1.flatten =
        tagFrom 0 [10, 20, 30])
    ∧ ((drainRounds (enqueueAll emptyQueue [10, 20, 30]) [2, 5]).1.flatten.map
        Prod.snd = [10, 20, 30]) :=
  ⟨rfl, (batching_complete_exclusive [10, 20, 30] [2, 5] rfl).1,
    (batching_complete_exclusive [10, 20, 30] [2, 5] rfl).2.1⟩

/-! ## Claim about the ledger bookkeeping invariant -/

/-- The freshly deployed contract satisfies the bookkeeping invariant. -/
theorem initial_inv (deployer : ℕ) : Inv (initialState deployer) := by
  refine ⟨?_, ?_, ?_, ?_⟩
  · intro bid h1 h2
    simp only [initialState] at h2
    omega
  · intro bid _
    rfl
  · intro r hr
    simp [initialState] at hr
  · intro bid h1 h2
    simp only [initialState] at h2
    omega

/-- A successful `storeBatch` preserves the bookkeeping invariant and
advances `batchCount` by exactly one. -/
theorem ledger_invariant_step (s : LedgerState) (sender root ec ts : ℕ)
    (s' : LedgerState) (hInv : Inv s)
    (h : storeBatch s sender root ec ts = .ok s') :
    Inv s' ∧ s'.batchCount = s.batchCount + 1 := by
  obtain ⟨i1, i2, i3, i4⟩ := hInv
  unfold storeBatch at h
  split_ifs at h with h1 h2 h3 h4
  injection h with h
  subst h
  refine ⟨⟨?_, ?_, ?_, ?_⟩, rfl⟩
  · intro bid hb1 hb2
    simp only at hb2 ⊢
    split_ifs with hbid
    · simpa using h2
    · exact i1 bid hb1 (by omega)
  · intro bid hb
    simp only at hb ⊢
    rw [if_neg (by omega)]
    refine i2 bid ?_
    rcases hb with hb | hb
    · exact Or.inl hb
    · exact Or.inr (by omega)
  · intro r hr
    simp only at hr ⊢
    by_cases hroot : r = root
    · simp only [if_pos hroot]
      refine ⟨by omega, by omega, ?_⟩
      rw [if_true]
      exact hroot.symm
    · rw [if_neg hroot] at hr
      obtain ⟨hb1, hb2, hb3⟩ := i3 r hr
      simp only [if_neg hroot]
      refine ⟨hb1, by omega, ?_⟩
      rw [if_neg (by omega)]
      exact hb3
  · intro bid hb1 hb2
    simp only at hb2 ⊢
    by_cases hbid : bid = s.batchCount + 1
    · subst hbid
      rw [if_pos rfl]
      simp
    · rw [if_neg hbid]
      obtain ⟨hr1, hr2⟩ := i4 bid hb1 (by omega)
      have hr0 : (s.batches bid).merkleRoot ≠ root := by
        intro hcontra
        rw [hcontra] at hr1
        rw [hr1] at h3
        exact h3 rfl
      rw [if_neg hr0, if_neg hr0]
      exact ⟨hr1, hr2⟩

/-- C10. Ledger bookkeeping: in every state reachable by successful
`storeBatch` calls the invariant holds — exactly slots `1..batchCount`
hold genuine batches and the root mappings agree with them both ways —
each success increments `batchCount` by one, `getBatch` succeeds exactly
on `1 ≤ batchId ≤ batchCount`, and every stored root is reproduced by the
batch its id points to. -/
theorem ledger_invariant (deployer : ℕ) (s : LedgerState)
    (hreach : Reachable deployer s) :
    Inv s
    ∧ (∀ sender root ec ts s', storeBatch s sender root ec ts = .ok s' →
        Inv s' ∧ s'.batchCount = s.batchCount + 1)
    ∧ (∀ bid, (∃ v, getBatch s bid = .ok v) ↔ 1 ≤ bid ∧ bid ≤ s.batchCount)
    ∧ (∀ r, s.rootExists r = true →
        (s.batches (s.rootToBatchId r)).merkleRoot = r) := by
  have hInv : Inv s := by
    induction hreach with
    | init => exact initial_inv deployer
    | step hr hstep ih => exact (ledger_invariant_step _ _ _ _ _ _ ih hstep).1
  refine ⟨hInv, fun sender root ec ts s' h =>
    ledger_invariant_step _ _ _ _ _ _ hInv h, ?_, fun r hr => (hInv.2.2.1 r hr).2.2⟩
  intro bid
  unfold getBatch
  split_ifs with h
  · exact iff_of_true ⟨_, rfl⟩ ⟨by omega, by omega⟩
  · constructor
    · rintro ⟨v, hv⟩
      exact absurd hv (by simp)
    · intro hb
      exact absurd ⟨by omega, by omega⟩ h

/-- Witness for C10 at the freshly deployed contract. -/
theorem ledger_invariant_witness :
    Reachable 0 (initialState 0) ∧ Inv (initialState 0) :=
  ⟨Reachable.init, (ledger_invariant 0 (initialState 0) Reachable.init).1⟩

end SentinelX
